import Mathlib

/-!
Shallow embedding of the AI-Helpdesk chunking and vector-store core
(`src/ai_helpdesk/utils/chunking.py`, `src/ai_helpdesk/storage/vector_store.py`,
`src/ai_helpdesk/models.py`), together with theorems settling the spec claims.

Python strings are modelled as `List Char`, Python ints as `Int`, numpy
float32 matrices as `List (List β)` (with `β = ℝ` where numeric values
matter), files on disk as `Option` fields of a `Disk` record.
-/

namespace AIHelpdesk

/-! ## Chunking (`utils/chunking.py`) -/

/-- Python slice-end normalization for `text[start:e]` with `start : Nat`:
a negative `e` counts from the end of the string, and the end is clamped
to the string length. -/
def pySliceEnd (len : Nat) (e : Int) : Nat :=
  if e < 0 then ((len : Int) + e).toNat else min len e.toNat

/-- Python `text[start:e]` for a nonnegative `start`. -/
def pySlice (text : List Char) (start : Nat) (e : Int) : List Char :=
  (text.take (pySliceEnd text.length e)).drop start

/-- The loop advance `step = max(1, chunk_size - chunk_overlap)` of
`_split_by_chars` (`chunking.py` line 39). -/
def pyStep (chunk_size chunk_overlap : Int) : Nat :=
  (max 1 (chunk_size - chunk_overlap)).toNat

/-- The `while start < len(text)` loop of `_split_by_chars`
(`chunking.py` lines 40-43), written with an explicit fuel argument.
Each iteration appends `text[start : min(len(text), start + chunk_size)]`
and advances `start` by `pyStep`.  Since `pyStep ≥ 1`, the loop performs at
most `text.length` iterations, so fuel `text.length` computes the loop
exactly (fuel-stability is proved below as part of claim C5). -/
def splitLoop (text : List Char) (chunk_size chunk_overlap : Int) :
    Nat → Nat → List (List Char)
  | _, 0 => []
  | start, fuel + 1 =>
    if start < text.length then
      pySlice text start (min (text.length : Int) ((start : Int) + chunk_size)) ::
        splitLoop text chunk_size chunk_overlap (start + pyStep chunk_size chunk_overlap) fuel
    else []

/-- `_split_by_chars(text, chunk_size, chunk_overlap)` (`chunking.py` lines 34-44). -/
def split_by_chars (text : List Char) (chunk_size chunk_overlap : Int) : List (List Char) :=
  splitLoop text chunk_size chunk_overlap 0 text.length

/-- `chunk_text` (`chunking.py` lines 47-63) in the tokenizer-free
environment: empty text yields `[]`, otherwise the character-based
fallback strategy `_split_by_chars` runs. -/
def chunk_text (text : List Char) (chunk_size chunk_overlap : Int) : List (List Char) :=
  if text.isEmpty then [] else split_by_chars text chunk_size chunk_overlap

/-- Models Python `str(n)` for a natural number: its decimal digit
characters, most significant first. -/
def decimalChars (n : Nat) : List Char :=
  if n = 0 then ['0'] else (Nat.digits 10 n).reverse.map Nat.digitChar

/-- Models `str.zfill(w)`: left-pad with `'0'` to width `w`. -/
def zfillChars (w : Nat) (s : List Char) : List Char :=
  List.replicate (w - s.length) '0' ++ s

/-- `total_digits = max(4, math.ceil(math.log10(len(chunk_list) + 1))) if chunk_list else 4`
(`chunking.py` line 70), with `math.ceil(math.log10(n + 1))` taken over the
exact reals: for `n ≥ 1` it equals `Nat.log 10 n + 1`, the decimal digit
count of `n`. -/
def totalDigitsFor (n : Nat) : Nat :=
  if n = 0 then 4 else max 4 (Nat.log 10 n + 1)

/-- `enumerate_chunks(chunks, prefix)` (`chunking.py` lines 66-71):
ids `f"{prefix}-{str(idx).zfill(total_digits)}"` for `idx = 1, ..., n`. -/
def enumerate_chunks (chunks : List (List Char)) (pre : List Char) : List (List Char) :=
  (List.range chunks.length).map
    (fun k => pre ++ '-' :: zfillChars (totalDigitsFor chunks.length) (decimalChars (k + 1)))

/-! ## Data model (`models.py`) -/

/-- `Document` (`models.py`): metadata is an open string-keyed mapping,
modelled as an association list. -/
structure Document where
  id : List Char
  source : List Char
  content : List Char
  metadata : List (List Char × List Char)
deriving DecidableEq

/-- `DocumentChunk` (`models.py`). -/
structure DocumentChunk where
  id : List Char
  document_id : List Char
  source : List Char
  content : List Char
  metadata : List (List Char × List Char)
deriving DecidableEq

instance : Inhabited DocumentChunk := ⟨⟨[], [], [], [], []⟩⟩

def titleKey : List Char := ['t', 'i', 't', 'l', 'e']

def pathKey : List Char := ['p', 'a', 't', 'h']

/-- Python truthiness of `dict.get`'s result: `None` and the empty string
are falsy. -/
def truthy : Option (List Char) → Bool
  | none => false
  | some s => !s.isEmpty

/-- `SearchResult.citation` (`models.py` lines 37-47): `title = metadata.get("title");
if title: return title; path = metadata.get("path"); if path: return path; return None`. -/
def citation (chunk : DocumentChunk) : Option (List Char) :=
  let title := chunk.metadata.lookup titleKey
  if truthy title then title
  else
    let path := chunk.metadata.lookup pathKey
    if truthy path then path else none

/-! ## Vector store state and persistence (`storage/vector_store.py`) -/

/-- The in-memory state of a `VectorStore`: `self._chunks`,
`self._embeddings` (`None` before the first load/ingest) and
`self._embedding_model`. -/
structure StoreState (β : Type) where
  chunks : List DocumentChunk
  embeddings : Option (List (List β))
  embedding_model : Option (List Char)
deriving DecidableEq

/-- The storage directory: `metadata.json` (chunk records plus embedding
model name) and `vectors.npy`, each possibly absent. -/
structure Disk (β : Type) where
  metaFile : Option (List DocumentChunk × Option (List Char))
  vectorsFile : Option (List (List β))
deriving DecidableEq

namespace VectorStore

/-- `VectorStore._load` (`vector_store.py` lines 41-47) as run by the
constructor: the state stays empty unless both artifacts exist, in which
case both are read.  The source performs no consistency check between the
two artifacts and has no failure path. -/
def load {β : Type} (disk : Disk β) : StoreState β :=
  match disk.metaFile, disk.vectorsFile with
  | some (cs, m), some vecs => ⟨cs, some vecs, m⟩
  | some (_, _), none => ⟨[], none, none⟩
  | none, _ => ⟨[], none, none⟩

/-- `VectorStore._save` (`vector_store.py` lines 49-57): the metadata
artifact is always rewritten; the vector artifact only when embeddings are
present. -/
def save {β : Type} (s : StoreState β) (disk : Disk β) : Disk β :=
  { metaFile := some (s.chunks, s.embedding_model)
    vectorsFile :=
      match s.embeddings with
      | some vecs => some vecs
      | none => disk.vectorsFile }

end VectorStore

/-- The per-document part of `add_documents` (`vector_store.py` lines
73-86): chunk the content, assign ids with the document id as prefix, and
build `DocumentChunk` records copying `source`/`metadata` from the parent. -/
def chunkDocument (doc : Document) (chunk_size chunk_overlap : Int) : List DocumentChunk :=
  let chunks := chunk_text doc.content chunk_size chunk_overlap
  let ids := enumerate_chunks chunks doc.id
  (ids.zip chunks).map (fun p => ⟨p.1, doc.id, doc.source, p.2, doc.metadata⟩)

/-- `shape[1]` of a 2-D numpy matrix modelled as a list of rows: the
common row width (the first row's length). -/
def matrixWidth {β : Type} (mat : List (List β)) : Nat := (mat.headD []).length

def dimMismatchMsg : List Char :=
  ['E', 'm', 'b', 'e', 'd', 'd', 'i', 'n', 'g', ' ', 'd', 'i', 'm', 'e', 'n', 's', 'i',
   'o', 'n', ' ', 'm', 'i', 's', 'm', 'a', 't', 'c', 'h']

def ndimMsg : List Char :=
  ['E', 'm', 'b', 'e', 'd', 'd', 'i', 'n', 'g', 's', ' ', 'm', 'u', 's', 't', ' ', 'b',
   'e', ' ', 'a', ' ', '2', 'D', ' ', 'a', 'r', 'r', 'a', 'y']

/-- `VectorStore.add_documents` (`vector_store.py` lines 60-106), returning
the final in-memory state, the final disk contents, and the message of the
raised `ValueError` if any.  Both `raise` sites in the source occur before
any assignment to `self` and before `_save`, so on an error the pre-call
state and disk are returned unchanged.  `np.asarray` of a row-aligned
batch of embeddings is 2-D exactly when the batch is nonempty and
rectangular; the empty batch (1-D, shape `(0,)`) trips the `ndim != 2`
check, which is how that check is modelled here (ragged batches already
fail inside `np.asarray` and are outside the model). -/
def add_documents {β : Type} (store : StoreState β) (disk : Disk β)
    (docs : List Document) (embed : List (List Char) → List (List β))
    (model_name : List Char) (chunk_size chunk_overlap : Int) :
    StoreState β × Disk β × Option (List Char) :=
  let new_chunks := docs.flatMap (fun d => chunkDocument d chunk_size chunk_overlap)
  if new_chunks.isEmpty then (store, disk, none)
  else
    let embs := embed (new_chunks.map (fun c => c.content))
    if embs.isEmpty then (store, disk, some ndimMsg)
    else
      match store.embeddings with
      | none =>
        let s' : StoreState β := ⟨new_chunks, some embs, some model_name⟩
        (s', VectorStore.save s' disk, none)
      | some embs0 =>
        if matrixWidth embs ≠ matrixWidth embs0 then (store, disk, some dimMismatchMsg)
        else
          let s' : StoreState β :=
            ⟨store.chunks ++ new_chunks, some (embs0 ++ embs), some model_name⟩
          (s', VectorStore.save s' disk, none)

/-! ## Search (`vector_store.py` lines 109-138)

Numeric vectors are modelled over the exact reals.  `doc_vectors @ query_vec`
is the row-wise dot product and `np.linalg.norm` the Euclidean norm, so the
`similarities` vector is the row-wise `similarityRow` below. -/

/-- Dot product of two vectors (`row · query`). -/
noncomputable def dot (v w : List ℝ) : ℝ := (List.zipWith (fun a b => a * b) v w).sum

/-- `np.linalg.norm`: the Euclidean norm. -/
noncomputable def npNorm (v : List ℝ) : ℝ := Real.sqrt (dot v v)

/-- The `1e-10` stabilizer added to both norms (`vector_store.py` lines 129-130). -/
noncomputable def eps : ℝ := 1 / 10 ^ 10

/-- `similarities[i] = (row_i · query) / ((‖row_i‖ + 1e-10) * (‖query‖ + 1e-10))`
(`vector_store.py` line 131). -/
noncomputable def similarityRow (row q : List ℝ) : ℝ :=
  dot row q / ((npNorm row + eps) * (npNorm q + eps))

/-- The full similarity vector: one entry per stored row. -/
noncomputable def similarities (embs : List (List ℝ)) (q : List ℝ) : List ℝ :=
  embs.map (fun row => similarityRow row q)

/-- The comparison key of `np.argsort` on the similarity vector: ascending
value, ties broken by ascending position (numpy's deterministic stable
argsort model; for distinct values any correct sort coincides with it). -/
def argKey (s : List ℝ) (i j : Nat) : Prop :=
  s.getD i 0 < s.getD j 0 ∨ (s.getD i 0 = s.getD j 0 ∧ i ≤ j)

noncomputable instance argKeyDecidable (s : List ℝ) : DecidableRel (argKey s) := fun i j => by
  unfold argKey
  infer_instance

instance argKeyTotal (s : List ℝ) : IsTotal Nat (argKey s) := by
  constructor
  intro i j
  rcases lt_trichotomy (s.getD i 0) (s.getD j 0) with h | h | h
  · exact Or.inl (Or.inl h)
  · rcases Nat.le_total i j with hij | hij
    · exact Or.inl (Or.inr ⟨h, hij⟩)
    · exact Or.inr (Or.inr ⟨h.symm, hij⟩)
  · exact Or.inr (Or.inl h)

instance argKeyTrans (s : List ℝ) : IsTrans Nat (argKey s) := by
  constructor
  intro i j k hij hjk
  rcases hij with h1 | ⟨e1, l1⟩
  · rcases hjk with h2 | ⟨e2, _⟩
    · exact Or.inl (h1.trans h2)
    · exact Or.inl (e2 ▸ h1)
  · rcases hjk with h2 | ⟨e2, l2⟩
    · exact Or.inl (e1 ▸ h2)
    · exact Or.inr ⟨e1.trans e2, l1.trans l2⟩

instance argKeyAntisymm (s : List ℝ) : IsAntisymm Nat (argKey s) := by
  constructor
  intro i j hij hji
  rcases hij with h1 | ⟨e1, l1⟩ <;> rcases hji with h2 | ⟨e2, l2⟩
  · exact absurd (h1.trans h2) (lt_irrefl _)
  · exact absurd h1 (e2 ▸ lt_irrefl _)
  · exact absurd h2 (e1 ▸ lt_irrefl _)
  · exact Nat.le_antisymm l1 l2

/-- `similarities.argsort()` (`vector_store.py` line 133): the indices
`0, ..., n-1` sorted ascending by similarity, ties by position. -/
noncomputable def argsort (s : List ℝ) : List Nat :=
  List.insertionSort (argKey s) (List.range s.length)

/-- Python / numpy slice `l[:k]` for a possibly negative `k`: a negative
`k` counts from the end (`l[:-1]` drops the last element). -/
def pyTake {α : Type} (k : Int) (l : List α) : List α :=
  if k < 0 then l.take ((l.length : Int) + k).toNat else l.take k.toNat

/-- `top_indices = similarities.argsort()[::-1][:top_k]` (`vector_store.py`
line 133). -/
noncomputable def topIndices (sims : List ℝ) (top_k : Int) : List Nat :=
  pyTake top_k (argsort sims).reverse

/-- `VectorStore.search` (`vector_store.py` lines 109-138) given the
already-embedded single-row query vector: guard on an empty store, score
every row, pick the top indices, and pair each selected chunk with its
score.  (The query-shape validation of lines 121-125 concerns the embedder
output and is outside this model, which takes the query vector directly.) -/
noncomputable def search (store : StoreState ℝ) (q : List ℝ) (top_k : Int) :
    List (DocumentChunk × ℝ) :=
  if store.chunks.isEmpty then []
  else
    match store.embeddings with
    | none => []
    | some embs =>
      let sims := similarities embs q
      (topIndices sims top_k).map (fun i => (store.chunks.getD i default, sims.getD i 0))

/-! ## Lemmas about the character-splitting loop -/

lemma pyStep_pos (cs co : Int) : 1 ≤ pyStep cs co := by
  have h : 1 ≤ max 1 (cs - co) := le_max_left _ _
  unfold pyStep
  omega

lemma splitLoop_congr_fuel (text : List Char) (cs co : Int) :
    ∀ (f1 f2 start : Nat), text.length - start ≤ f1 → text.length - start ≤ f2 →
      splitLoop text cs co start f1 = splitLoop text cs co start f2 := by
  intro f1
  induction f1 with
  | zero =>
    intro f2 start h1 _
    have hs : ¬ start < text.length := by omega
    cases f2 with
    | zero => rfl
    | succ f2 => simp [splitLoop, hs]
  | succ f1 ih =>
    intro f2 start h1 h2
    by_cases hs : start < text.length
    · cases f2 with
      | zero => omega
      | succ f2 =>
        have hstep := pyStep_pos cs co
        simp only [splitLoop, if_pos hs]
        rw [ih f2 (start + pyStep cs co) (by omega) (by omega)]
    · cases f2 with
      | zero => simp [splitLoop, hs]
      | succ f2 => simp [splitLoop, hs]

lemma splitLoop_length_le (text : List Char) (cs co : Int) :
    ∀ (fuel start : Nat), (splitLoop text cs co start fuel).length ≤ text.length - start := by
  intro fuel
  induction fuel with
  | zero => intro start; simp [splitLoop]
  | succ fuel ih =>
    intro start
    by_cases hs : start < text.length
    · have hstep := pyStep_pos cs co
      have := ih (start + pyStep cs co)
      simp only [splitLoop, if_pos hs, List.length_cons]
      omega
    · simp [splitLoop, hs]

lemma splitLoop_lt_length (text : List Char) (cs co : Int) :
    ∀ (fuel start k : Nat), text.length - start ≤ fuel →
      (k < (splitLoop text cs co start fuel).length ↔
        start + k * pyStep cs co < text.length) := by
  intro fuel
  induction fuel with
  | zero =>
    intro start k h
    have hs : ¬ start < text.length := by omega
    generalize k * pyStep cs co = m
    simp [splitLoop]
    omega
  | succ fuel ih =>
    intro start k h
    by_cases hs : start < text.length
    · simp only [splitLoop, if_pos hs, List.length_cons]
      cases k with
      | zero => simpa using hs
      | succ k =>
        have hstep := pyStep_pos cs co
        rw [Nat.succ_lt_succ_iff, ih (start + pyStep cs co) k (by omega)]
        have harith : start + pyStep cs co + k * pyStep cs co =
            start + (k + 1) * pyStep cs co := by ring
        rw [harith]
    · generalize k * pyStep cs co = m
      simp [splitLoop, hs]
      omega

lemma pySlice_eq (text : List Char) (start : Nat) (cs : Int) (hcs : 1 ≤ cs)
    (hs : start < text.length) :
    pySlice text start (min (text.length : Int) ((start : Int) + cs)) =
      (text.drop start).take cs.toNat := by
  unfold pySlice pySliceEnd
  have he : ¬ (min (text.length : Int) ((start : Int) + cs) < 0) := by
    rw [not_lt, le_min_iff]
    constructor <;> omega
  rw [if_neg he]
  rcases le_or_lt (text.length : Int) ((start : Int) + cs) with hc | hc
  · rw [min_eq_left hc]
    have h1 : (text.length : Int).toNat = text.length := by omega
    rw [h1, min_self, List.take_length]
    have h2 : (text.drop start).length ≤ cs.toNat := by
      rw [List.length_drop]
      omega
    rw [List.take_of_length_le h2]
  · rw [min_eq_right (le_of_lt hc)]
    have h1 : ((start : Int) + cs).toNat = start + cs.toNat := by omega
    rw [h1]
    have h2 : min text.length (start + cs.toNat) = start + cs.toNat := by omega
    rw [h2, List.drop_take]
    congr 1
    omega

lemma splitLoop_getD (text : List Char) (cs co : Int) (hcs : 1 ≤ cs) :
    ∀ (fuel start k : Nat), k < (splitLoop text cs co start fuel).length →
      (splitLoop text cs co start fuel).getD k [] =
        (text.drop (start + k * pyStep cs co)).take cs.toNat := by
  intro fuel
  induction fuel with
  | zero => intro start k hk; simp [splitLoop] at hk
  | succ fuel ih =>
    intro start k hk
    by_cases hs : start < text.length
    · simp only [splitLoop, if_pos hs, List.length_cons] at hk ⊢
      cases k with
      | zero =>
        simp only [List.getD_cons_zero]
        rw [pySlice_eq text start cs hcs hs]
        simp
      | succ k =>
        simp only [List.getD_cons_succ]
        rw [ih (start + pyStep cs co) k (by omega)]
        congr 2
        ring
    · simp [splitLoop, hs] at hk

/-- C5: for every text and all integer parameters, including every case
with `chunk_overlap ≥ chunk_size`, the character-splitting loop advances
its window start by `max(1, chunk_size - chunk_overlap) ≥ 1` per
iteration, hence terminates: the loop is exhausted within `text.length`
iterations (the result is stable under any extra fuel) and produces at
most `text.length` chunks. -/
theorem C5_split_by_chars_terminates (text : List Char) (cs co : Int) (extra : Nat) :
    1 ≤ pyStep cs co ∧
    split_by_chars text cs co = splitLoop text cs co 0 (text.length + extra) ∧
    (split_by_chars text cs co).length ≤ text.length := by
  refine ⟨pyStep_pos cs co, ?_, ?_⟩
  · exact splitLoop_congr_fuel text cs co text.length (text.length + extra) 0
      (by omega) (by omega)
  · have h := splitLoop_length_le text cs co text.length 0
    simpa [split_by_chars] using h

/-- C4: for nonempty text and `0 ≤ chunk_overlap < chunk_size`, the
character-based `split` returns a nonempty list of substrings of the text;
chunk `k` is exactly the slice of the text at span
`[k * step, k * step + chunk_size)` (so chunks have length at most
`chunk_size` and the spans cover the whole text), and whenever enough text
remains, consecutive chunks overlap in exactly `chunk_overlap` characters:
the last `chunk_overlap` characters of chunk `k` are the first
`chunk_overlap` characters of chunk `k+1`. -/
theorem C4_split_by_chars_correct (text : List Char) (cs co : Int)
    (h0 : 0 ≤ co) (h1 : co < cs) (hne : text ≠ []) :
    chunk_text text cs co = split_by_chars text cs co ∧
    chunk_text [] cs co = [] ∧
    split_by_chars text cs co ≠ [] ∧
    (∀ k, k < (split_by_chars text cs co).length →
      (split_by_chars text cs co).getD k [] =
        (text.drop (k * pyStep cs co)).take cs.toNat ∧
      ((split_by_chars text cs co).getD k []).length ≤ cs.toNat) ∧
    (∀ pos, pos < text.length → ∃ k, k < (split_by_chars text cs co).length ∧
      k * pyStep cs co ≤ pos ∧ pos < k * pyStep cs co + cs.toNat) ∧
    (∀ k, k + 1 < (split_by_chars text cs co).length →
      k * pyStep cs co + cs.toNat ≤ text.length →
      ((split_by_chars text cs co).getD k []).drop (pyStep cs co) =
        ((split_by_chars text cs co).getD (k + 1) []).take co.toNat ∧
      (((split_by_chars text cs co).getD k []).drop (pyStep cs co)).length =
        co.toNat) := by
  have hcs : 1 ≤ cs := by omega
  have hlen : 0 < text.length := List.length_pos.mpr hne
  have hstep := pyStep_pos cs co
  have hmax : max 1 (cs - co) = cs - co := max_eq_right (by omega)
  have hstep_cs : pyStep cs co ≤ cs.toNat := by unfold pyStep; omega
  have hco : cs.toNat - pyStep cs co = co.toNat := by unfold pyStep; omega
  simp only [split_by_chars]
  have hiff := fun k => splitLoop_lt_length text cs co text.length 0 k (by omega)
  have hget := fun k hk => splitLoop_getD text cs co hcs text.length 0 k hk
  simp only [Nat.zero_add] at hiff hget
  refine ⟨?_, rfl, ?_, ?_, ?_, ?_⟩
  · unfold chunk_text
    rw [if_neg (by simpa using hne)]
    rfl
  · rw [← List.length_pos]
    rw [show (0 : Nat) < (splitLoop text cs co 0 text.length).length ↔
      0 < (splitLoop text cs co 0 text.length).length from Iff.rfl]
    have h := (hiff 0).mpr (by simpa using hlen)
    omega
  · intro k hk
    have hg := hget k hk
    refine ⟨hg, ?_⟩
    rw [hg, List.length_take]
    exact min_le_left _ _
  · intro pos hpos
    have hmod := Nat.div_add_mod pos (pyStep cs co)
    have hmlt : pos % pyStep cs co < pyStep cs co := Nat.mod_lt _ (by omega)
    have hqd : pos / pyStep cs co * pyStep cs co = pyStep cs co * (pos / pyStep cs co) :=
      Nat.mul_comm _ _
    refine ⟨pos / pyStep cs co, ?_, ?_, ?_⟩
    · rw [hiff]
      omega
    · omega
    · omega
  · intro k hk hroom
    have hk0 : k < (splitLoop text cs co 0 text.length).length := by omega
    have hg0 := hget k hk0
    have hg1 := hget (k + 1) hk
    have hchunk_len : ((splitLoop text cs co 0 text.length).getD k []).length = cs.toNat := by
      rw [hg0, List.length_take, List.length_drop]
      omega
    constructor
    · rw [hg0, hg1, List.drop_take, List.drop_drop]
      have harith : k * pyStep cs co + pyStep cs co = (k + 1) * pyStep cs co := by ring
      rw [harith, hco, List.take_take, min_eq_left (by omega)]
    · rw [List.length_drop, hchunk_len, hco]

/-- Witness for C4 at `text = "abcd"`, `chunk_size = 2`, `chunk_overlap = 1`. -/
theorem C4_split_by_chars_correct_witness :
    (0 : Int) ≤ 1 ∧ (1 : Int) < 2 ∧ (['a', 'b', 'c', 'd'] : List Char) ≠ [] ∧
    split_by_chars ['a', 'b', 'c', 'd'] 2 1 ≠ [] :=
  ⟨by decide, by decide, by decide,
    (C4_split_by_chars_correct ['a', 'b', 'c', 'd'] 2 1 (by decide) (by decide)
      (by decide)).2.2.1⟩

/-! ## Lemmas about decimal identifiers (claim C8) -/

/-- Numeric value of a big-endian digit list. -/
def beVal (l : List Nat) : Nat := Nat.ofDigits 10 l.reverse

/-- Big-endian decimal digits of `m`, zero-padded to width `w`. -/
def bePad (w m : Nat) : List Nat :=
  List.replicate (w - (Nat.digits 10 m).length) 0 ++ (Nat.digits 10 m).reverse

lemma beVal_cons (a : Nat) (t : List Nat) :
    beVal (a :: t) = beVal t + 10 ^ t.length * a := by
  unfold beVal
  rw [List.reverse_cons, Nat.ofDigits_append, Nat.ofDigits_singleton,
    List.length_reverse]

lemma beVal_lt (l : List Nat) (h : ∀ d ∈ l, d < 10) : beVal l < 10 ^ l.length := by
  induction l with
  | nil => simp [beVal, Nat.ofDigits_nil]
  | cons a t ih =>
    have ha : a < 10 := h a (List.mem_cons_self a t)
    have ht := ih (fun d hd => h d (List.mem_cons_of_mem a hd))
    rw [beVal_cons, List.length_cons]
    calc beVal t + 10 ^ t.length * a
        < 10 ^ t.length + 10 ^ t.length * a := by omega
      _ = 10 ^ t.length * (a + 1) := by ring
      _ ≤ 10 ^ t.length * 10 := Nat.mul_le_mul_left _ (by omega)
      _ = 10 ^ (t.length + 1) := (pow_succ 10 t.length).symm

lemma lex_of_beVal_lt : ∀ (l1 l2 : List Nat), l1.length = l2.length →
    (∀ d ∈ l1, d < 10) → (∀ d ∈ l2, d < 10) → beVal l1 < beVal l2 →
    List.Lex (· < ·) l1 l2 := by
  intro l1
  induction l1 with
  | nil =>
    intro l2 hlen _ _ hv
    cases l2 with
    | nil => simp [beVal, Nat.ofDigits_nil] at hv
    | cons b t2 => simp at hlen
  | cons a t ih =>
    intro l2 hlen h1 h2 hv
    cases l2 with
    | nil => simp at hlen
    | cons b t2 =>
      have hlen' : t.length = t2.length := by simpa using hlen
      rcases lt_trichotomy a b with hab | hab | hab
      · exact List.Lex.rel hab
      · subst hab
        refine List.Lex.cons (ih t2 hlen' (fun d hd => h1 d (List.mem_cons_of_mem a hd))
          (fun d hd => h2 d (List.mem_cons_of_mem a hd)) ?_)
        rw [beVal_cons, beVal_cons, hlen'] at hv
        omega
      · exfalso
        have ht2 : beVal t2 < 10 ^ t2.length :=
          beVal_lt t2 (fun d hd => h2 d (List.mem_cons_of_mem b hd))
        have hlt : beVal (b :: t2) < beVal (a :: t) := by
          rw [beVal_cons, beVal_cons, ← hlen']
          calc beVal t2 + 10 ^ t.length * b
              < 10 ^ t.length + 10 ^ t.length * b := by rw [hlen']; omega
            _ = 10 ^ t.length * (b + 1) := by ring
            _ ≤ 10 ^ t.length * a := Nat.mul_le_mul_left _ (by omega)
            _ ≤ beVal t + 10 ^ t.length * a := by omega
        omega

lemma ofDigits_replicate_zero (n : Nat) : Nat.ofDigits 10 (List.replicate n 0) = 0 := by
  induction n with
  | zero => simp [Nat.ofDigits_nil]
  | succ n ih => rw [List.replicate_succ, Nat.ofDigits_cons, ih]

lemma beVal_bePad (w m : Nat) : beVal (bePad w m) = m := by
  unfold beVal bePad
  rw [List.reverse_append, List.reverse_reverse, List.reverse_replicate,
    Nat.ofDigits_append, Nat.ofDigits_digits, ofDigits_replicate_zero]
  ring

lemma bePad_length (w m : Nat) (h : (Nat.digits 10 m).length ≤ w) :
    (bePad w m).length = w := by
  unfold bePad
  rw [List.length_append, List.length_replicate, List.length_reverse]
  omega

lemma bePad_digits_lt (w m : Nat) : ∀ d ∈ bePad w m, d < 10 := by
  intro d hd
  unfold bePad at hd
  rcases List.mem_append.mp hd with hd | hd
  · rw [List.eq_of_mem_replicate hd]
    omega
  · exact Nat.digits_lt_base (by omega) (List.mem_reverse.mp hd)

lemma digitChar_strictMono : ∀ a, a < 10 → ∀ b, b < 10 → a < b →
    Nat.digitChar a < Nat.digitChar b := by decide

lemma digitChar_map_lex : ∀ {l1 l2 : List Nat}, List.Lex (· < ·) l1 l2 →
    (∀ d ∈ l1, d < 10) → (∀ d ∈ l2, d < 10) →
    List.Lex (· < ·) (l1.map Nat.digitChar) (l2.map Nat.digitChar) := by
  intro l1 l2 hlex
  induction hlex with
  | nil =>
    intro _ _
    simp only [List.map_nil, List.map_cons]
    exact List.Lex.nil
  | @rel a l1 b l2 h =>
    intro h1 h2
    simp only [List.map_cons]
    exact List.Lex.rel (digitChar_strictMono a (h1 a (List.mem_cons_self a l1)) b
      (h2 b (List.mem_cons_self b l2)) h)
  | @cons a l1 l2 h ih =>
    intro h1 h2
    simp only [List.map_cons]
    exact List.Lex.cons (ih (fun d hd => h1 d (List.mem_cons_of_mem a hd))
      (fun d hd => h2 d (List.mem_cons_of_mem a hd)))

lemma zfill_decimal_eq_bePad (w m : Nat) (hm : m ≠ 0) :
    zfillChars w (decimalChars m) = (bePad w m).map Nat.digitChar := by
  unfold zfillChars decimalChars bePad
  rw [if_neg hm, List.map_append, List.map_replicate, List.length_map,
    List.length_reverse]
  congr 1

lemma digits_len_le (m w : Nat) (hm : m ≠ 0) (hw : Nat.log 10 m + 1 ≤ w) :
    (Nat.digits 10 m).length ≤ w := by
  rw [Nat.digits_len 10 m (by omega) hm]
  exact hw

/-- The padded decimal representations (at a common width that fits both)
are strictly lexicographically increasing in the represented number. -/
lemma zfill_decimal_lex (w m n : Nat) (hm : m ≠ 0) (hmn : m < n)
    (hw : Nat.log 10 n + 1 ≤ w) :
    List.Lex (· < ·) (zfillChars w (decimalChars m)) (zfillChars w (decimalChars n)) := by
  have hn : n ≠ 0 := by omega
  have hlm : (Nat.digits 10 m).length ≤ w :=
    digits_len_le m w hm (le_trans (by
      have := Nat.log_mono_right (b := 10) (le_of_lt hmn)
      omega) hw)
  have hln : (Nat.digits 10 n).length ≤ w := digits_len_le n w hn hw
  rw [zfill_decimal_eq_bePad w m hm, zfill_decimal_eq_bePad w n hn]
  refine digitChar_map_lex ?_ (bePad_digits_lt w m) (bePad_digits_lt w n)
  refine lex_of_beVal_lt _ _ ?_ (bePad_digits_lt w m) (bePad_digits_lt w n) ?_
  · rw [bePad_length w m hlm, bePad_length w n hln]
  · rw [beVal_bePad, beVal_bePad]
    exact hmn

lemma lex_irrefl (l : List Char) : ¬ List.Lex (· < ·) l l := by
  induction l with
  | nil => intro h; cases h
  | cons a t ih =>
    intro h
    cases h with
    | cons h => exact ih h
    | rel h => exact lt_irrefl a h

lemma enumerate_chunks_getD (chunks : List (List Char)) (pre : List Char) (k : Nat)
    (hk : k < chunks.length) :
    (enumerate_chunks chunks pre).getD k [] =
      pre ++ '-' :: zfillChars (totalDigitsFor chunks.length) (decimalChars (k + 1)) := by
  unfold enumerate_chunks
  rw [List.getD_eq_getElem _ _ (by simpa using hk)]
  simp

/-- C8: for a chunk list of length `n ≥ 1` and any prefix, `enumerate_chunks`
returns `n` identifiers `"{prefix}-{padded}"`, each padded ordinal having
width exactly `max(4, decimal digit count of n)` (where the digit count of
`n`, the largest ordinal, is `Nat.log 10 n + 1`); the identifiers are
strictly lexicographically increasing in insertion order — hence pairwise
distinct — the padding width is 4 for `n ∈ {1, 9, 10, 9999}` and 5 for
`n = 10000`, and the empty input yields the empty output. -/
theorem C8_enumerate_chunks_ids (chunks : List (List Char)) (pre : List Char) (n : Nat)
    (hn : chunks.length = n) (h1 : 1 ≤ n) :
    (enumerate_chunks chunks pre).length = n ∧
    totalDigitsFor n = max 4 (Nat.log 10 n + 1) ∧
    (∀ k, k < n →
      (enumerate_chunks chunks pre).getD k [] =
        pre ++ '-' :: zfillChars (totalDigitsFor n) (decimalChars (k + 1)) ∧
      (zfillChars (totalDigitsFor n) (decimalChars (k + 1))).length = totalDigitsFor n) ∧
    (enumerate_chunks chunks pre).Pairwise (fun x y => List.Lex (· < ·) x y) ∧
    (enumerate_chunks chunks pre).Nodup ∧
    (totalDigitsFor 1 = 4 ∧ totalDigitsFor 9 = 4 ∧ totalDigitsFor 10 = 4 ∧
      totalDigitsFor 9999 = 4 ∧ totalDigitsFor 10000 = 5) ∧
    enumerate_chunks [] pre = [] := by
  subst hn
  have hn0 : chunks.length ≠ 0 := by omega
  have htd : totalDigitsFor chunks.length = max 4 (Nat.log 10 chunks.length + 1) := by
    unfold totalDigitsFor
    rw [if_neg hn0]
  have hwidth : ∀ m : Nat, m ≠ 0 → m ≤ chunks.length →
      (Nat.digits 10 m).length ≤ totalDigitsFor chunks.length := by
    intro m hm hmn
    refine digits_len_le m _ hm ?_
    have := Nat.log_mono_right (b := 10) hmn
    omega
  have happ : ∀ X : List Char, pre ++ '-' :: X = (pre ++ ['-']) ++ X := by
    intro X
    simp
  have hlex : ∀ a b : Nat, a < chunks.length → b < chunks.length → a < b →
      List.Lex (· < ·)
        (pre ++ '-' :: zfillChars (totalDigitsFor chunks.length) (decimalChars (a + 1)))
        (pre ++ '-' :: zfillChars (totalDigitsFor chunks.length) (decimalChars (b + 1))) := by
    intro a b _ hb hab
    have hcore : List.Lex (· < ·)
        (zfillChars (totalDigitsFor chunks.length) (decimalChars (a + 1)))
        (zfillChars (totalDigitsFor chunks.length) (decimalChars (b + 1))) := by
      refine zfill_decimal_lex _ (a + 1) (b + 1) (by omega) (by omega) ?_
      have hlog := Nat.log_mono_right (b := 10) (show b + 1 ≤ chunks.length by omega)
      omega
    have h := List.Lex.append_left (· < ·) hcore (pre ++ ['-'])
    simpa using h
  have hpw : (enumerate_chunks chunks pre).Pairwise (fun x y => List.Lex (· < ·) x y) := by
    unfold enumerate_chunks
    refine List.pairwise_map.mpr ?_
    refine List.Pairwise.imp_of_mem ?_ (List.pairwise_lt_range chunks.length)
    intro a b ha hb hab
    exact hlex a b (List.mem_range.mp ha) (List.mem_range.mp hb) hab
  have hlog1 : Nat.log 10 1 = 0 := Nat.log_eq_of_pow_le_of_lt_pow (by norm_num) (by norm_num)
  have hlog9 : Nat.log 10 9 = 0 := Nat.log_eq_of_pow_le_of_lt_pow (by norm_num) (by norm_num)
  have hlog10 : Nat.log 10 10 = 1 :=
    Nat.log_eq_of_pow_le_of_lt_pow (by norm_num) (by norm_num)
  have hlog9999 : Nat.log 10 9999 = 3 :=
    Nat.log_eq_of_pow_le_of_lt_pow (by norm_num) (by norm_num)
  have hlog10000 : Nat.log 10 10000 = 4 :=
    Nat.log_eq_of_pow_le_of_lt_pow (by norm_num) (by norm_num)
  refine ⟨?_, htd, ?_, hpw, ?_, ?_, ?_⟩
  · unfold enumerate_chunks
    simp
  · intro k hk
    refine ⟨enumerate_chunks_getD chunks pre k hk, ?_⟩
    have hdlen : (decimalChars (k + 1)).length ≤ totalDigitsFor chunks.length := by
      unfold decimalChars
      rw [if_neg (by omega : k + 1 ≠ 0)]
      rw [List.length_map, List.length_reverse]
      exact hwidth (k + 1) (by omega) (by omega)
    unfold zfillChars
    rw [List.length_append, List.length_replicate]
    omega
  · refine hpw.imp ?_
    intro x y hxy heq
    rw [heq] at hxy
    exact lex_irrefl y hxy
  · refine ⟨?_, ?_, ?_, ?_, ?_⟩ <;>
      simp [totalDigitsFor, hlog1, hlog9, hlog10, hlog9999, hlog10000]
  · unfold enumerate_chunks
    simp

/-- Witness for C8 at a one-chunk list. -/
theorem C8_enumerate_chunks_ids_witness :
    ([['x']] : List (List Char)).length = 1 ∧ 1 ≤ 1 ∧
    (enumerate_chunks [['x']] ['p']).length = 1 :=
  ⟨by decide, by decide,
    (C8_enumerate_chunks_ids [['x']] ['p'] 1 (by decide) (by decide)).1⟩

/-! ## Load consistency (claim C9) and citation (claim C10) -/

def c9chunkA : DocumentChunk := ⟨['1'], ['d'], ['s'], ['x'], []⟩

def c9chunkB : DocumentChunk := ⟨['2'], ['d'], ['s'], ['y'], []⟩

/-- A storage directory whose metadata artifact holds 2 chunk records while
the vector artifact holds a single row. -/
def c9disk : Disk Nat := ⟨some ([c9chunkA, c9chunkB], none), some [[7]]⟩

/-- C9 evaluation at the failing input: `_load` has no consistency check and
no failure path at all, so opening a store on a directory whose metadata
artifact holds 2 chunk records but whose vector artifact holds 1 row
silently yields the inconsistent state instead of signaling a
`LoadConsistencyError`. -/
theorem C9_load_accepts_mismatched_artifacts :
    VectorStore.load c9disk = ⟨[c9chunkA, c9chunkB], some [[7]], none⟩ ∧
    (VectorStore.load c9disk).chunks.length = 2 ∧
    ((VectorStore.load c9disk).embeddings.getD []).length = 1 ∧ (2 : Nat) ≠ 1 := by
  refine ⟨rfl, rfl, rfl, by decide⟩

/-- C10 counterexample: a chunk whose metadata has `"title"` present but
mapped to the empty string and `"path"` mapped to `"p"`.  The claim as
stated predicts the citation equals the title value `some ""`; the code
falls through Python truthiness and returns the path `some "p"`. -/
theorem C10_citation_counterexample :
    citation ⟨['c'], ['d'], ['s'], ['x'], [(titleKey, []), (pathKey, ['p'])]⟩ =
      some ['p'] ∧
    (some ['p'] : Option (List Char)) ≠ some [] := by
  exact ⟨by decide, by decide⟩

/-- C10 amended: the citation is the `"title"` metadata value when that key
is present with a non-empty value; otherwise the `"path"` value when that
key is present with a non-empty value; otherwise none.  (A present but
empty `"title"` or `"path"` is falsy in Python and is skipped.) -/
theorem C10_citation_preference (c : DocumentChunk) :
    (∀ t, c.metadata.lookup titleKey = some t → t ≠ [] → citation c = some t) ∧
    ((c.metadata.lookup titleKey = none ∨ c.metadata.lookup titleKey = some []) →
      ∀ p, c.metadata.lookup pathKey = some p → p ≠ [] → citation c = some p) ∧
    ((c.metadata.lookup titleKey = none ∨ c.metadata.lookup titleKey = some []) →
      (c.metadata.lookup pathKey = none ∨ c.metadata.lookup pathKey = some []) →
      citation c = none) := by
  refine ⟨?_, ?_, ?_⟩
  · intro t ht hne
    cases t with
    | nil => exact absurd rfl hne
    | cons a t' => simp [citation, ht, truthy]
  · intro htitle p hp hpne
    cases p with
    | nil => exact absurd rfl hpne
    | cons a p' =>
      rcases htitle with h | h <;> simp [citation, h, hp, truthy]
  · intro htitle hpath
    rcases htitle with h | h <;> rcases hpath with h2 | h2 <;>
      simp [citation, h, h2, truthy]

/-- Witness for C10 on the three preference branches. -/
theorem C10_citation_preference_witness :
    citation ⟨[], [], [], [], [(titleKey, ['T'])]⟩ = some ['T'] ∧
    citation ⟨[], [], [], [], [(titleKey, []), (pathKey, ['P'])]⟩ = some ['P'] ∧
    citation ⟨[], [], [], [], []⟩ = none :=
  ⟨(C10_citation_preference _).1 ['T'] (by decide) (by decide),
   (C10_citation_preference _).2.1 (Or.inr (by decide)) ['P'] (by decide) (by decide),
   (C10_citation_preference _).2.2 (Or.inl (by decide)) (Or.inl (by decide))⟩

/-! ## Persistence round-trip (claim C2) and dimension mismatch (claim C3) -/

/-- C2: for a store opened from a directory, any successful `add_documents`
call (no error raised) leaves the directory such that re-opening it yields
exactly the in-memory chunk list and embedding matrix of the store that
performed the add. -/
theorem C2_add_documents_roundtrip {β : Type} (disk : Disk β) (docs : List Document)
    (embed : List (List Char) → List (List β)) (model_name : List Char) (cs co : Int)
    (herr : (add_documents (VectorStore.load disk) disk docs embed model_name cs co).2.2 =
      none) :
    (VectorStore.load
        (add_documents (VectorStore.load disk) disk docs embed model_name cs co).2.1).chunks =
      (add_documents (VectorStore.load disk) disk docs embed model_name cs co).1.chunks ∧
    (VectorStore.load
        (add_documents (VectorStore.load disk) disk docs embed model_name cs co).2.1).embeddings =
      (add_documents (VectorStore.load disk) disk docs embed model_name cs co).1.embeddings := by
  simp only [add_documents] at herr ⊢
  by_cases h1 : (docs.flatMap (fun d => chunkDocument d cs co)).isEmpty
  · simp only [if_pos h1]
    exact ⟨trivial, trivial⟩
  · simp only [if_neg h1] at herr ⊢
    by_cases h2 : (embed ((docs.flatMap (fun d => chunkDocument d cs co)).map
        (fun c => c.content))).isEmpty
    · simp only [if_pos h2] at herr
      simp at herr
    · simp only [if_neg h2] at herr ⊢
      cases hemb : (VectorStore.load disk).embeddings with
      | none =>
        simp only [hemb, VectorStore.save, VectorStore.load]
        exact ⟨trivial, trivial⟩
      | some embs0 =>
        simp only [hemb] at herr ⊢
        by_cases h3 : matrixWidth (embed ((docs.flatMap (fun d => chunkDocument d cs co)).map
            (fun c => c.content))) ≠ matrixWidth embs0
        · simp only [if_pos h3] at herr
          simp at herr
        · simp only [if_neg h3]
          simp only [VectorStore.save, VectorStore.load]
          exact ⟨trivial, trivial⟩

def c2disk : Disk Nat := ⟨none, none⟩

def c2doc : Document := ⟨['d'], ['w'], ['a', 'b'], []⟩

def c2embed : List (List Char) → List (List Nat) := fun ts => ts.map (fun _ => [7])

/-- Witness for C2: one document with content `"ab"`, one embedding row. -/
theorem C2_add_documents_roundtrip_witness :
    (add_documents (VectorStore.load c2disk) c2disk [c2doc] c2embed ['m'] 5 1).2.2 = none ∧
    (VectorStore.load
        (add_documents (VectorStore.load c2disk) c2disk [c2doc] c2embed ['m'] 5 1).2.1).chunks =
      (add_documents (VectorStore.load c2disk) c2disk [c2doc] c2embed ['m'] 5 1).1.chunks :=
  ⟨by decide, (C2_add_documents_roundtrip c2disk [c2doc] c2embed ['m'] 5 1 (by decide)).1⟩

/-- C3: if the store already holds embeddings and the embedder returns a
2-D (nonempty, rectangular) matrix whose column count differs from the
stored one, `add_documents` fails with the dimension-mismatch error and
returns the in-memory state and the disk exactly as they were: the raise
happens before any mutation or save. -/
theorem C3_dimension_mismatch_no_mutation {β : Type} (store : StoreState β) (disk : Disk β)
    (docs : List Document) (embed : List (List Char) → List (List β))
    (model_name : List Char) (cs co : Int) (embs0 : List (List β))
    (hemb : store.embeddings = some embs0)
    (hrect0 : ∀ row ∈ embs0, row.length = matrixWidth embs0)
    (hnc : (docs.flatMap (fun d => chunkDocument d cs co)).isEmpty = false)
    (hne : (embed ((docs.flatMap (fun d => chunkDocument d cs co)).map
      (fun c => c.content))).isEmpty = false)
    (hrect : ∀ row ∈ embed ((docs.flatMap (fun d => chunkDocument d cs co)).map
      (fun c => c.content)), row.length = matrixWidth (embed ((docs.flatMap
        (fun d => chunkDocument d cs co)).map (fun c => c.content))))
    (hw : matrixWidth (embed ((docs.flatMap (fun d => chunkDocument d cs co)).map
      (fun c => c.content))) ≠ matrixWidth embs0) :
    add_documents store disk docs embed model_name cs co =
      (store, disk, some dimMismatchMsg) := by
  simp only [add_documents, hnc, Bool.false_eq_true, if_false, hne, hemb, if_pos hw]

def c3store : StoreState Nat := ⟨[c9chunkA], some [[4, 4]], some ['m']⟩

def c3embed : List (List Char) → List (List Nat) := fun ts => ts.map (fun _ => [0, 0, 0])

/-- Witness for C3: a store of width 2, an embedder producing width 3. -/
theorem C3_dimension_mismatch_no_mutation_witness :
    c3store.embeddings = some [[4, 4]] ∧
    ([c2doc].flatMap (fun d => chunkDocument d 5 1)).isEmpty = false ∧
    add_documents c3store c2disk [c2doc] c3embed ['m'] 5 1 =
      (c3store, c2disk, some dimMismatchMsg) :=
  ⟨by decide, by decide,
    C3_dimension_mismatch_no_mutation c3store c2disk [c2doc] c3embed ['m'] 5 1 [[4, 4]]
      (by decide) (by decide) (by decide) (by decide) (by decide) (by decide)⟩

/-! ## Lemmas about argsort, topIndices and search (claims C1, C6, C7) -/

lemma argsort_perm (s : List ℝ) : List.Perm (argsort s) (List.range s.length) :=
  List.perm_insertionSort _ _

lemma argsort_length (s : List ℝ) : (argsort s).length = s.length := by
  rw [(argsort_perm s).length_eq, List.length_range]

lemma argsort_sorted (s : List ℝ) : List.Sorted (argKey s) (argsort s) :=
  List.sorted_insertionSort _ _

lemma argsort_nodup (s : List ℝ) : (argsort s).Nodup :=
  (argsort_perm s).nodup_iff.mpr (List.nodup_range s.length)

lemma argsort_mem {s : List ℝ} {i : Nat} (h : i ∈ argsort s) : i < s.length := by
  have := (argsort_perm s).mem_iff.mp h
  simpa using this

lemma pyTake_sublist {α : Type} (k : Int) (l : List α) : (pyTake k l).Sublist l := by
  unfold pyTake
  split <;> exact List.take_sublist _ _

lemma pyTake_length_of_nonneg {α : Type} (k : Int) (hk : 0 ≤ k) (l : List α) :
    (pyTake k l).length = min k.toNat l.length := by
  unfold pyTake
  rw [if_neg (by omega), List.length_take]

lemma pyTake_length_of_neg {α : Type} (k : Int) (hk : k < 0) (l : List α) :
    (pyTake k l).length = ((l.length : Int) + k).toNat := by
  unfold pyTake
  rw [if_pos hk, List.length_take]
  omega

/-- The selected index sequence is strictly descending in the argsort key:
an earlier selected index has strictly larger similarity, or equal
similarity and a strictly larger position. -/
lemma topIndices_pairwise (s : List ℝ) (k : Int) :
    (topIndices s k).Pairwise
      (fun i j => s.getD j 0 < s.getD i 0 ∨ (s.getD i 0 = s.getD j 0 ∧ j < i)) := by
  have h1 : (argsort s).Pairwise (fun i j => argKey s i j ∧ i ≠ j) :=
    (argsort_sorted s).and (argsort_nodup s)
  have h2 : (argsort s).reverse.Pairwise (fun i j => argKey s j i ∧ j ≠ i) :=
    List.pairwise_reverse.mpr h1
  have h3 := h2.sublist (pyTake_sublist k _)
  refine h3.imp ?_
  intro i j hij
  rcases hij with ⟨hk | ⟨he, hle⟩, hne⟩
  · exact Or.inl hk
  · exact Or.inr ⟨he.symm, lt_of_le_of_ne hle hne⟩

lemma search_eq (chunks : List DocumentChunk) (embs : List (List ℝ))
    (m : Option (List Char)) (q : List ℝ) (k : Int) (hc : chunks ≠ []) :
    search ⟨chunks, some embs, m⟩ q k =
      (topIndices (similarities embs q) k).map
        (fun i => (chunks.getD i default, (similarities embs q).getD i 0)) := by
  unfold search
  rw [if_neg (by simpa using hc)]

lemma similarities_getD (embs : List (List ℝ)) (q : List ℝ) (i : Nat)
    (hi : i < embs.length) :
    (similarities embs q).getD i 0 = similarityRow (embs.getD i []) q := by
  unfold similarities
  rw [List.getD_eq_getElem _ _ (by simpa using hi), List.getElem_map,
    List.getD_eq_getElem _ _ hi]

lemma similarities_length (embs : List (List ℝ)) (q : List ℝ) :
    (similarities embs q).length = embs.length := by
  unfold similarities
  rw [List.length_map]

/-! ## Concrete search evaluations -/

def exChunkA : DocumentChunk := ⟨['a'], ['a'], ['s'], ['u'], []⟩

def exChunkB : DocumentChunk := ⟨['b'], ['b'], ['s'], ['v'], []⟩

def exChunkC : DocumentChunk := ⟨['c'], ['c'], ['s'], ['w'], []⟩

/-- The store of the spec's worked example: three stored unit vectors
`[1,0]`, `[0,1]`, `[-1,0]`. -/
noncomputable def exStore : StoreState ℝ :=
  ⟨[exChunkA, exChunkB, exChunkC], some [[1, 0], [0, 1], [-1, 0]], none⟩

lemma eps_pos : 0 < eps := by
  unfold eps
  norm_num

lemma simRow_pos : 0 < similarityRow [(1 : ℝ), 0] [1, 0] := by
  have h : dot [(1 : ℝ), 0] [1, 0] = 1 := by simp [dot]
  unfold similarityRow npNorm
  rw [h, Real.sqrt_one]
  unfold eps
  positivity

lemma simRow_zero : similarityRow [(0 : ℝ), 1] [1, 0] = 0 := by
  have h : dot [(0 : ℝ), 1] [1, 0] = 0 := by simp [dot]
  unfold similarityRow
  rw [h, zero_div]

lemma simRow_neg : similarityRow [(-1 : ℝ), 0] [1, 0] < 0 := by
  have hn : dot [(-1 : ℝ), 0] [1, 0] = -1 := by simp [dot]
  have hr : dot [(-1 : ℝ), 0] [(-1 : ℝ), 0] = 1 := by norm_num [dot]
  have hq : dot [(1 : ℝ), 0] [1, 0] = 1 := by simp [dot]
  unfold similarityRow npNorm
  rw [hn, hr, hq, Real.sqrt_one]
  apply div_neg_of_neg_of_pos
  · norm_num
  · have := eps_pos
    positivity

lemma exSims_eq : similarities [[(1 : ℝ), 0], [0, 1], [-1, 0]] [1, 0] =
    [similarityRow [(1 : ℝ), 0] [1, 0], similarityRow [(0 : ℝ), 1] [1, 0],
      similarityRow [(-1 : ℝ), 0] [1, 0]] := by
  simp [similarities]

lemma exArgsort : argsort (similarities [[(1 : ℝ), 0], [0, 1], [-1, 0]] [1, 0]) =
    [2, 1, 0] := by
  have hs := exSims_eq
  have h21 : (similarities [[(1 : ℝ), 0], [0, 1], [-1, 0]] [1, 0]).getD 2 0 <
      (similarities [[(1 : ℝ), 0], [0, 1], [-1, 0]] [1, 0]).getD 1 0 := by
    rw [hs]
    simp only [List.getD_cons_succ, List.getD_cons_zero]
    rw [simRow_zero]
    exact simRow_neg
  have h10 : (similarities [[(1 : ℝ), 0], [0, 1], [-1, 0]] [1, 0]).getD 1 0 <
      (similarities [[(1 : ℝ), 0], [0, 1], [-1, 0]] [1, 0]).getD 0 0 := by
    rw [hs]
    simp only [List.getD_cons_succ, List.getD_cons_zero]
    rw [simRow_zero]
    exact simRow_pos
  have h20 := h21.trans h10
  refine List.eq_of_perm_of_sorted ?_ (argsort_sorted _) ?_
  · refine (argsort_perm _).trans ?_
    rw [show (similarities [[(1 : ℝ), 0], [0, 1], [-1, 0]] [1, 0]).length = 3 by
      rw [hs]; rfl]
    decide
  · refine List.Pairwise.cons ?_ (List.Pairwise.cons ?_ (List.pairwise_singleton _ _))
    · intro b hb
      rcases List.mem_cons.mp hb with rfl | hb
      · exact Or.inl h21
      · rw [List.mem_singleton.mp hb]
        exact Or.inl h20
    · intro b hb
      rw [List.mem_singleton.mp hb]
      exact Or.inl h10

lemma exTop2 : topIndices (similarities [[(1 : ℝ), 0], [0, 1], [-1, 0]] [1, 0]) 2 =
    [0, 1] := by
  unfold topIndices
  rw [exArgsort]
  decide

lemma exTop5 : topIndices (similarities [[(1 : ℝ), 0], [0, 1], [-1, 0]] [1, 0]) 5 =
    [0, 1, 2] := by
  unfold topIndices
  rw [exArgsort]
  decide

/-- C1: on a store of `n ≥ 1` chunks index-aligned with the embedding rows,
with a matching-width single query vector and `top_k ≥ 1`, `search` returns
`min(top_k, n)` results whose scores are non-increasing, every result being
a stored chunk paired with its cosine similarity
`(row_i · q) / ((‖row_i‖ + 1e-10) * (‖q‖ + 1e-10))`; on the worked example
(`[1,0]`, `[0,1]`, `[-1,0]` against query `[1,0]`), `top_k = 2` returns the
first and second chunks in that order, and `top_k = 5 > 3` returns all
three chunks, still sorted descending. -/
theorem C1_search_ranking :
    (∀ (chunks : List DocumentChunk) (embs : List (List ℝ)) (m : Option (List Char))
        (q : List ℝ) (top_k : Int) (n d : Nat),
      chunks.length = n → embs.length = n → 1 ≤ n →
      (∀ row ∈ embs, row.length = d) → q.length = d → 1 ≤ top_k →
      (search ⟨chunks, some embs, m⟩ q top_k).length = min top_k.toNat n ∧
      ((search ⟨chunks, some embs, m⟩ q top_k).map Prod.snd).Pairwise (· ≥ ·) ∧
      (∀ r ∈ search ⟨chunks, some embs, m⟩ q top_k, ∃ i, i < n ∧
        r = (chunks.getD i default, similarityRow (embs.getD i []) q))) ∧
    (search exStore [1, 0] 2).map Prod.fst = [exChunkA, exChunkB] ∧
    (search exStore [1, 0] 5).map Prod.fst = [exChunkA, exChunkB, exChunkC] := by
  refine ⟨?_, ?_, ?_⟩
  · intro chunks embs m q top_k n d hcl hel hn hrow hq htk
    have hcne : chunks ≠ [] := by
      intro h
      rw [h] at hcl
      simp at hcl
      omega
    have hse := search_eq chunks embs m q top_k hcne
    have hslen : (similarities embs q).length = n := by
      rw [similarities_length, hel]
    have hrevlen : ((argsort (similarities embs q)).reverse).length = n := by
      rw [List.length_reverse, argsort_length, hslen]
    refine ⟨?_, ?_, ?_⟩
    · rw [hse, List.length_map]
      unfold topIndices
      rw [pyTake_length_of_nonneg top_k (by omega), hrevlen]
    · rw [hse, List.map_map]
      refine List.pairwise_map.mpr ?_
      refine (topIndices_pairwise (similarities embs q) top_k).imp ?_
      intro i j hij
      rcases hij with h | ⟨he, _⟩
      · exact le_of_lt h
      · exact he.ge
    · rw [hse]
      intro r hr
      rcases List.mem_map.mp hr with ⟨i, hi, rfl⟩
      have hmem : i ∈ (argsort (similarities embs q)).reverse :=
        (pyTake_sublist top_k _).subset hi
      have hilt : i < n := by
        have := argsort_mem (List.mem_reverse.mp hmem)
        omega
      refine ⟨i, hilt, ?_⟩
      rw [similarities_getD embs q i (by omega)]
  · unfold exStore
    rw [search_eq _ _ _ _ _ (List.cons_ne_nil _ _), exTop2]
    rfl
  · unfold exStore
    rw [search_eq _ _ _ _ _ (List.cons_ne_nil _ _), exTop5]
    rfl

/-- Witness for C1 on the worked example with `top_k = 2`. -/
theorem C1_search_ranking_witness :
    ([exChunkA, exChunkB, exChunkC].length = 3) ∧ (1 ≤ 3) ∧ ((1 : Int) ≤ 2) ∧
    (search ⟨[exChunkA, exChunkB, exChunkC], some [[1, 0], [0, 1], [-1, 0]], none⟩
      [1, 0] 2).length = min (Int.toNat 2) 3 :=
  ⟨rfl, by norm_num, by norm_num,
    (C1_search_ranking.1 [exChunkA, exChunkB, exChunkC] [[1, 0], [0, 1], [-1, 0]] none
      [1, 0] 2 3 2 rfl rfl (by norm_num) (by intro row hr; fin_cases hr <;> rfl) rfl
      (by norm_num)).1⟩

/-! ## Tie-breaking (claim C6) and `top_k ≤ 0` (claim C7) -/

/-- A store holding two chunks with identical embedding rows: every query
ties them. -/
noncomputable def tieStore : StoreState ℝ := ⟨[exChunkA, exChunkB], some [[1], [1]], none⟩

lemma tieArgsort : argsort (similarities [[(1 : ℝ)], [1]] [1]) = [0, 1] := by
  refine List.eq_of_perm_of_sorted ?_ (argsort_sorted _) ?_
  · have hlen : (similarities [[(1 : ℝ)], [1]] [1]).length = 2 := by
      simp [similarities]
    refine (argsort_perm _).trans ?_
    rw [hlen]
    decide
  · refine List.Pairwise.cons ?_ (List.pairwise_singleton _ _)
    intro b hb
    rw [List.mem_singleton.mp hb]
    exact Or.inr ⟨rfl, by omega⟩

lemma tieSearch2 : (search tieStore [1] 2).map Prod.fst = [exChunkB, exChunkA] := by
  unfold tieStore
  rw [search_eq _ _ _ _ _ (List.cons_ne_nil _ _)]
  unfold topIndices
  rw [tieArgsort]
  rfl

/-- C6 counterexample: with two identical stored rows `[1]`, `[1]` and
query `[1]` (an exact similarity tie), `search` with `top_k = 2` returns
the second chunk first: ties are not in insertion order. -/
theorem C6_tie_order_counterexample :
    (search tieStore [1] 2).map Prod.fst = [exChunkB, exChunkA] ∧
    ([exChunkB, exChunkA] : List DocumentChunk) ≠ [exChunkA, exChunkB] :=
  ⟨tieSearch2, by decide⟩

/-- C6 amended: modelling `argsort` as numpy's stable ascending sort, the
reversal `[::-1]` puts similarity ties in REVERSE insertion order: among
the selected indices, an earlier result has strictly larger similarity or
— on an exact tie — a strictly larger storage index; concretely, the
two-way tie above returns the chunks in reverse insertion order. -/
theorem C6_ties_reverse_insertion_order :
    (∀ (s : List ℝ) (k : Int), (topIndices s k).Pairwise
      (fun i j => s.getD j 0 < s.getD i 0 ∨ (s.getD i 0 = s.getD j 0 ∧ j < i))) ∧
    (search tieStore [1] 2).map Prod.fst = [exChunkB, exChunkA] :=
  ⟨topIndices_pairwise, tieSearch2⟩

/-- C7 counterexample: `top_k = -1` on a two-chunk store does not return
the empty sequence — Python's `[:top_k]` slice with a negative bound drops
elements from the end instead. -/
theorem C7_negative_top_k_counterexample :
    (search tieStore [1] (-1)).length = 1 ∧ (1 : Nat) ≠ 0 := by
  constructor
  · unfold tieStore
    rw [search_eq _ _ _ _ _ (List.cons_ne_nil _ _)]
    unfold topIndices
    rw [tieArgsort]
    rfl
  · decide

/-- C7 amended: `search` returns `[]` on an empty store for every `top_k`
and for `top_k = 0` on every store, but for `top_k < 0` on a store of `n`
aligned chunks it returns `max(0, n + top_k)` results (Python
negative-slice semantics), which is empty only when `top_k ≤ -n`. -/
theorem C7_top_k_nonpositive :
    (∀ (store : StoreState ℝ) (q : List ℝ) (k : Int), store.chunks = [] →
      search store q k = []) ∧
    (∀ (store : StoreState ℝ) (q : List ℝ), search store q 0 = []) ∧
    (∀ (chunks : List DocumentChunk) (embs : List (List ℝ)) (m : Option (List Char))
        (q : List ℝ) (k : Int) (n : Nat), chunks.length = n → embs.length = n → k < 0 →
      (search ⟨chunks, some embs, m⟩ q k).length = ((n : Int) + k).toNat) := by
  refine ⟨?_, ?_, ?_⟩
  · intro store q k h
    unfold search
    rw [if_pos (by simpa using h)]
  · intro store q
    unfold search
    by_cases h : store.chunks.isEmpty
    · rw [if_pos h]
    · rw [if_neg h]
      cases store.embeddings with
      | none => rfl
      | some embs => simp [topIndices, pyTake]
  · intro chunks embs m q k n hcl hel hk
    cases chunks with
    | nil =>
      simp only [List.length_nil] at hcl
      unfold search
      rw [if_pos (by rfl)]
      simp only [List.length_nil]
      omega
    | cons c crest =>
      rw [search_eq _ _ _ _ _ (List.cons_ne_nil _ _), List.length_map]
      unfold topIndices
      rw [pyTake_length_of_neg k hk, List.length_reverse, argsort_length,
        similarities_length, hel]

/-- Witness for C7 (negative branch) at the two-chunk tie store. -/
theorem C7_top_k_nonpositive_witness :
    ((-1 : Int) < 0) ∧
    (search ⟨[exChunkA, exChunkB], some [[1], [1]], none⟩ [1] (-1)).length =
      ((2 : Int) + (-1)).toNat :=
  ⟨by norm_num,
    C7_top_k_nonpositive.2.2 [exChunkA, exChunkB] [[1], [1]] none [1] (-1) 2 rfl rfl
      (by norm_num)⟩

end AIHelpdesk
